import Mathlib

/-!
Verification of the line-segmentation core of `linereader2`
(`src/LineReader.ts`).  Strings are modelled as `List Char`; the external
chunk source (`chunkreader2`) is modelled by the list of chunks still to be
delivered (`rem`), with `read` consuming the head, `isClosed` meaning the
list is empty, and `reset` restoring the full chunk list of the file.
-/

/-- The three line separators of the `LineSeparator` TS union type. -/
inductive LineSep where
  | crlf
  | lf
  | cr
deriving DecidableEq, Repr

/-- The character sequence of a separator token. -/
def sepChars : LineSep → List Char
  | LineSep.crlf => ['\r', '\n']
  | LineSep.lf => ['\n']
  | LineSep.cr => ['\r']

/-- JS `s.lastIndexOf(pat)` scanned downward from position `i`. -/
def lastIndexFrom (s pat : List Char) : Nat → Option Nat
  | 0 => if pat.isPrefixOf s then some 0 else none
  | i + 1 => if pat.isPrefixOf (s.drop (i + 1)) then some (i + 1) else lastIndexFrom s pat i

/-- JS `s.lastIndexOf(pat)`: greatest index at which `pat` occurs in `s`
(`none` models the JS result `-1`). -/
def lastIndexOf (s pat : List Char) : Option Nat :=
  lastIndexFrom s pat s.length

/-- JS `s.indexOf(pat)` scanned upward from `i` with explicit fuel. -/
def firstIndexFrom (s pat : List Char) : Nat → Nat → Option Nat
  | _, 0 => none
  | i, fuel + 1 => if pat.isPrefixOf (s.drop i) then some i else firstIndexFrom s pat (i + 1) fuel

/-- JS `s.indexOf(pat)`: least index at which `pat` occurs in `s`. -/
def firstIndexOf (s pat : List Char) : Option Nat :=
  firstIndexFrom s pat 0 (s.length + 1)

/-- One step of JS `String.split`: cut at the first occurrence, with fuel. -/
def splitGo (sep : List Char) : Nat → List Char → List (List Char)
  | 0, s => [s]
  | fuel + 1, s =>
    match firstIndexOf s sep with
    | none => [s]
    | some i => s.take i :: splitGo sep fuel (s.drop (i + sep.length))

/-- JS `s.split(sep)` for one of the three separator tokens.  The fuel
`s.length + 1` is enough because each cut removes at least one character. -/
def splitOnSep (sep : LineSep) (s : List Char) : List (List Char) :=
  splitGo (sepChars sep) (s.length + 1) s

/-- `lines.join(sep)`: the inverse of `splitOnSep`. -/
def joinSep (sep : LineSep) : List (List Char) → List Char
  | [] => []
  | [x] => x
  | x :: y :: xs => x ++ sepChars sep ++ joinSep sep (y :: xs)

/-- Cut a string into successive chunks of `b` characters, with fuel.
This is the sequence of chunks the underlying `ChunkReader` delivers. -/
def chunksGo (b : Nat) : Nat → List Char → List (List Char)
  | 0, _ => []
  | _ + 1, [] => []
  | fuel + 1, c :: cs => (c :: cs).take b :: chunksGo b fuel ((c :: cs).drop b)

/-- The chunk sequence of a file of content `s` read with buffer size `b`
(meaningful for `1 ≤ b`; the real reader never uses a zero buffer size). -/
def chunksOf (b : Nat) (s : List Char) : List (List Char) :=
  chunksGo b s.length s

/-- One element of the `skipNumbers` option: a single 1-based line number or
an inclusive `[start, end]` range. -/
inductive SkipEntry where
  | one (n : Nat)
  | interval (a b : Nat)
deriving DecidableEq, Repr

/-- Membership in the skip set the constructor builds: `add n` for a single
number, `addRange start (end + 1)` for a range.  The bitset's `addRange j k`
adds exactly the integers in `[j, k)` and is a no-op when `j ≥ k`, so an
inclusive pair `[a, b]` contributes exactly `a ≤ n ≤ b` (nothing when
`b < a`). -/
def skipHas (entries : List SkipEntry) (n : Nat) : Bool :=
  entries.any fun e =>
    match e with
    | SkipEntry.one k => n == k
    | SkipEntry.interval a b => decide (a ≤ n) && decide (n ≤ b)

/-- The JS `WhiteSpace`/`LineTerminator` characters removed by
`String.prototype.trim`. -/
def jsWhitespace (c : Char) : Bool :=
  c == ' ' || c == '\t' || c == '\n' || c == '\r' || c == '\x0b' || c == '\x0c' ||
    c.val == 0xa0 || c.val == 0x1680 || (decide (0x2000 ≤ c.val) && decide (c.val ≤ 0x200a)) ||
    c.val == 0x2028 || c.val == 0x2029 || c.val == 0x202f || c.val == 0x205f ||
    c.val == 0x3000 || c.val == 0xfeff

/-- JS `!text.trim().length`: the text trims to the empty string. -/
def jsTrimEmpty (t : List Char) : Bool :=
  t.all jsWhitespace

/-- The construction options of `LineReader` that the core logic reads
(`filePath`, `bufferEncoding` and `removeInvisibleUnicode` are I/O concerns
of the external chunk source).  `content` is the decoded text of the file. -/
structure LROptions where
  content : List Char
  bufferSize : Nat
  lineSeparator : Option LineSep
  skipBlank : Bool
  skipNumbers : Option (List SkipEntry)
deriving DecidableEq, Repr

/-- The mutable state of a `LineReader`: the chunks the source has not yet
delivered (`rem`), the pending fragment (`cutted`), the session separator,
the line counter and the output queue. -/
structure LRState where
  rem : List (List Char)
  cutted : Option (List Char)
  separator : Option LineSep
  count : Nat
  buffer : List (List Char × Nat)
deriving DecidableEq, Repr

/-- The chunk sequence of the whole file, used by the source's `reset`. -/
def lrChunks (o : LROptions) : List (List Char) :=
  chunksOf o.bufferSize o.content

/-- The state right after the constructor ran: the source is at the start,
the separator is whatever `options.lineSeparator` holds, counter is 0. -/
def initState (o : LROptions) : LRState :=
  ⟨lrChunks o, none, o.lineSeparator, 0, []⟩

/-- The composite `isClosed` getter: the source is exhausted, no pending
fragment remains (`cutted === undefined`), and the output queue is empty. -/
def lrIsClosed (s : LRState) : Bool :=
  s.rem.isEmpty && s.cutted.isNone && s.buffer.isEmpty

/-- The detection loop of `setSeparator`: pull chunks while the source is
open; check the whole chunk for `"\r\n"`, then the chunk's interior
(`chunk.slice(1, chunk.length - 1)`) for `"\n"`, then for `"\r"`; stop at
the first hit. -/
def detectLoop : List (List Char) → Option LineSep
  | [] => none
  | c :: rest =>
    if (lastIndexOf c (sepChars LineSep.crlf)).isSome then some LineSep.crlf
    else
      let middle := (c.drop 1).dropLast
      if (lastIndexOf middle (sepChars LineSep.lf)).isSome then some LineSep.lf
      else if (lastIndexOf middle (sepChars LineSep.cr)).isSome then some LineSep.cr
      else detectLoop rest

/-- `setSeparator`: run the detection loop from the current source position,
then `reader.reset()` and store the detected separator, `"\r\n"` by default
when the source was exhausted without a hit. -/
def setSeparator (o : LROptions) (s : LRState) : LRState :=
  { s with rem := lrChunks o, separator := some ((detectLoop s.rem).getD LineSep.crlf) }

/-- The accumulation loop of `nextChunk`: pull chunks while the source is
open, checking each freshly pulled chunk (`chunk.lastIndexOf(separator)`)
for the separator; on a hit stop with the accumulated text, the remaining
chunks and the cut position `chunks.length - chunk.length + foundAt`.
Returns (accumulated text, remaining chunks, optional cut position). -/
def accumLoop (sep : List Char) : List (List Char) → List Char × List (List Char) × Option Nat
  | [] => ([], [], none)
  | c :: rest =>
    match lastIndexOf c sep with
    | some j => (c, rest, some j)
    | none =>
      let r := accumLoop sep rest
      (c ++ r.1, r.2.1, r.2.2.map fun i => c.length + i)

/-- `nextChunk`: ensure a separator, accumulate chunks until it is found or
the source is exhausted, and return the blob
`(this.cutted || '') + (cutted ? chunks.slice(0, cutAt) : chunks)`, adding
`chunks.slice(cutAt)` and clearing the fragment when the source is closed,
and otherwise carrying `chunks.slice(cutAt + separator.length)` forward. -/
def nextChunk (o : LROptions) (s₀ : LRState) : List Char × LRState :=
  let s := if s₀.separator.isNone then setSeparator o s₀ else s₀
  -- `this.separator!`: always `some` here, since `setSeparator` stores one.
  let sep := sepChars (s.separator.getD LineSep.crlf)
  let r := accumLoop sep s.rem
  let chunks := r.1
  let rem' := r.2.1
  let data₀ := s.cutted.getD [] ++ (match r.2.2 with
    | some i => chunks.take i
    | none => chunks)
  if rem'.isEmpty then
    (match r.2.2 with
      | some i => data₀ ++ chunks.drop i
      | none => data₀,
     { s with rem := rem', cutted := none })
  else
    (data₀,
     { s with rem := rem',
              cutted := match r.2.2 with
                | some i => some (chunks.drop (i + sep.length))
                | none => none })

/-- The numbering and filter loop of `readLinesWithNumbers`: for each raw
line text, pre-increment the counter, drop the line when its number is in
the skip set, else drop it when blank-skipping is on and it trims to
nothing, else push `(text, number)` onto the queue.  A missing
`skipNumbers` option makes the skip test false, exactly as the JS guard
`this.options.skipNumbers && this.skips.has(number)` does. -/
def processTexts (o : LROptions) : List (List Char) → Nat → List (List Char × Nat) → Nat × List (List Char × Nat)
  | [], cnt, buf => (cnt, buf)
  | t :: ts, cnt, buf =>
    if skipHas (o.skipNumbers.getD []) (cnt + 1) then processTexts o ts (cnt + 1) buf
    else if o.skipBlank && jsTrimEmpty t then processTexts o ts (cnt + 1) buf
    else processTexts o ts (cnt + 1) (buf ++ [(t, cnt + 1)])

/-- `readLinesWithNumbers(limit?)`.  A zero-length source returns `[]` at
once.  A fetch runs when `!limit || limit > this.buffer.length` (so a
`limit` of 0, being falsy, behaves as no limit); its blob is split and
processed unless it is empty and the reader is already closed.  Finally
`this.buffer.remove(0, limit || this.buffer.length)` drains the front of
the queue. -/
def readLinesWithNumbers (o : LROptions) (s : LRState) (limit : Option Nat) :
    List (List Char × Nat) × LRState :=
  if o.content.length = 0 then ([], s)
  else
    let fetch : Bool :=
      match limit with
      | none => true
      | some l => l == 0 || decide (s.buffer.length < l)
    let s₁ :=
      if fetch then
        let r := nextChunk o s
        let t := r.2
        if !r.1.isEmpty || !lrIsClosed t then
          let texts := splitOnSep (t.separator.getD LineSep.crlf) r.1
          let p := processTexts o texts t.count t.buffer
          { t with count := p.1, buffer := p.2 }
        else t
      else s
    let k :=
      match limit with
      | none => s₁.buffer.length
      | some l => if l == 0 then s₁.buffer.length else l
    (s₁.buffer.take k, { s₁ with buffer := s₁.buffer.drop k })

/-- `readLines(limit?)`: the same, discarding the numbers. -/
def readLines (o : LROptions) (s : LRState) (limit : Option Nat) :
    List (List Char) × LRState :=
  let r := readLinesWithNumbers o s limit
  (r.1.map Prod.fst, r.2)

/-- `readLineWithNumber()`: call the limit-1 variant until it yields a line
or the reader is closed.  `fuel` bounds the number of loop iterations. -/
def readLineLoop (o : LROptions) (s : LRState) : Nat → Option (List Char × Nat) × LRState
  | 0 => (none, s)
  | fuel + 1 =>
    if lrIsClosed s then (none, s)
    else
      match readLinesWithNumbers o s (some 1) with
      | ([], s') => readLineLoop o s' fuel
      | (l :: _, s') => (some l, s')

/-- `readLine()`: the same, discarding the number. -/
def readLineOnly (o : LROptions) (s : LRState) (fuel : Nat) : Option (List Char) × LRState :=
  let r := readLineLoop o s fuel
  (r.1.map Prod.fst, r.2)

/-- `resetReader()`: rewind the source, clear the queue, the pending
fragment and the separator (`delete this.separator` removes it even when it
was supplied in the options), and reset the counter to 0. -/
def resetReader (o : LROptions) (_s : LRState) : LRState :=
  ⟨lrChunks o, none, none, 0, []⟩

/-- Repeatedly call `readLinesWithNumbers` until the reader reports closed,
as the repository's read loops do, collecting everything delivered. -/
def drainAll (o : LROptions) (limit : Option Nat) : LRState → Nat → List (List Char × Nat) × LRState
  | s, 0 => ([], s)
  | s, fuel + 1 =>
    if lrIsClosed s then ([], s)
    else
      let p := readLinesWithNumbers o s limit
      let r := drainAll o limit p.2 fuel
      (p.1 ++ r.1, r.2)

/-- Options for a plain read: a file content, a buffer size, an explicitly
configured separator, and no filters. -/
def plainOpts (sep : LineSep) (b : Nat) (content : List Char) : LROptions :=
  ⟨content, b, some sep, false, none⟩

/-- `pat` occurs somewhere in `c` (Boolean containment test). -/
def hasOccurrence (pat c : List Char) : Bool :=
  (List.range (c.length + 1)).any fun i => pat.isPrefixOf (c.drop i)

/-- The separator, if any, that one chunk makes the detector pick: the whole
chunk is checked for `"\r\n"`, and only the interior (first and last
character removed) for `"\n"` and then `"\r"`. -/
def detectChunk (c : List Char) : Option LineSep :=
  if hasOccurrence (sepChars LineSep.crlf) c then some LineSep.crlf
  else if hasOccurrence (sepChars LineSep.lf) ((c.drop 1).dropLast) then some LineSep.lf
  else if hasOccurrence (sepChars LineSep.cr) ((c.drop 1).dropLast) then some LineSep.cr
  else none

/-- The accumulation loop as claim C4 words it: after each pull, search the
CUMULATIVE buffer (`acc ++ c`), not just the newest chunk, for the last
occurrence of the separator, and stop on the first occurrence found. -/
def accumLoopCum (sep : List Char) : List Char → List (List Char) → List Char × List (List Char) × Option Nat
  | acc, [] => (acc, [], none)
  | acc, c :: rest =>
    match lastIndexOf (acc ++ c) sep with
    | some j => (acc ++ c, rest, some j)
    | none => accumLoopCum sep (acc ++ c) rest

/-- The chunk-to-line splitter as claim C4 describes it: identical to
`nextChunk` except that the separator is searched for in the cumulative
buffer after each pull. -/
def nextChunkCumulative (o : LROptions) (s₀ : LRState) : List Char × LRState :=
  let s := if s₀.separator.isNone then setSeparator o s₀ else s₀
  let sep := sepChars (s.separator.getD LineSep.crlf)
  let r := accumLoopCum sep [] s.rem
  let chunks := r.1
  let rem' := r.2.1
  let data₀ := s.cutted.getD [] ++ (match r.2.2 with
    | some i => chunks.take i
    | none => chunks)
  if rem'.isEmpty then
    (match r.2.2 with
      | some i => data₀ ++ chunks.drop i
      | none => data₀,
     { s with rem := rem', cutted := none })
  else
    (data₀,
     { s with rem := rem',
              cutted := match r.2.2 with
                | some i => some (chunks.drop (i + sep.length))
                | none => none })

/-! ### Basic facts about occurrences, split and join -/

theorem isPrefixOf_append_drop :
    ∀ (p s : List Char), p.isPrefixOf s = true → s = p ++ s.drop p.length
  | [], s, _ => by simp
  | a :: p, [], h => by simp [List.isPrefixOf] at h
  | a :: p, b :: s, h => by
    simp only [List.isPrefixOf, Bool.and_eq_true, beq_iff_eq] at h
    simpa [h.1] using isPrefixOf_append_drop p s h.2

theorem isPrefixOf_length_le :
    ∀ (p s : List Char), p.isPrefixOf s = true → p.length ≤ s.length
  | [], _, _ => by simp
  | a :: p, [], h => by simp [List.isPrefixOf] at h
  | a :: p, b :: s, h => by
    simp only [List.isPrefixOf, Bool.and_eq_true] at h
    simpa using isPrefixOf_length_le p s h.2

theorem occurrence_le (p s : List Char) (k : Nat) (hp : p ≠ [])
    (h : p.isPrefixOf (s.drop k) = true) : k + p.length ≤ s.length := by
  have hop := isPrefixOf_length_le p (s.drop k) h
  simp only [List.length_drop] at hop
  have hpos : 0 < p.length := List.length_pos.mpr hp
  omega

theorem occurrence_decomp (p s : List Char) (k : Nat)
    (h : p.isPrefixOf (s.drop k) = true) :
    s = s.take k ++ p ++ s.drop (k + p.length) := by
  have h1 : s.drop k = p ++ (s.drop k).drop p.length := isPrefixOf_append_drop p (s.drop k) h
  have h2 : (s.drop k).drop p.length = s.drop (k + p.length) := by
    rw [List.drop_drop]
  rw [List.append_assoc, ← h2, ← h1, List.take_append_drop]

theorem lastIndexFrom_some_occ (s pat : List Char) :
    ∀ i j, lastIndexFrom s pat i = some j → pat.isPrefixOf (s.drop j) = true := by
  intro i
  induction i with
  | zero =>
    intro j h
    by_cases hp : pat.isPrefixOf s = true
    · simp only [lastIndexFrom, hp, if_pos] at h
      cases h
      simpa using hp
    · simp [lastIndexFrom, hp] at h
  | succ n ih =>
    intro j h
    by_cases hp : pat.isPrefixOf (s.drop (n + 1)) = true
    · simp only [lastIndexFrom, hp, if_pos] at h
      cases h
      exact hp
    · simp only [lastIndexFrom, hp, if_neg, Bool.false_eq_true, not_false_eq_true] at h
      exact ih j h

theorem lastIndexFrom_some_le (s pat : List Char) :
    ∀ i j, lastIndexFrom s pat i = some j → j ≤ i := by
  intro i
  induction i with
  | zero =>
    intro j h
    by_cases hp : pat.isPrefixOf s = true
    · simp only [lastIndexFrom, hp, if_pos] at h
      cases h
      exact Nat.le_refl 0
    · simp [lastIndexFrom, hp] at h
  | succ n ih =>
    intro j h
    by_cases hp : pat.isPrefixOf (s.drop (n + 1)) = true
    · simp only [lastIndexFrom, hp, if_pos] at h
      cases h
      exact Nat.le_refl _
    · simp only [lastIndexFrom, hp, if_neg, Bool.false_eq_true, not_false_eq_true] at h
      exact Nat.le_succ_of_le (ih j h)

theorem lastIndexFrom_max (s pat : List Char) :
    ∀ i j, lastIndexFrom s pat i = some j →
      ∀ k, k ≤ i → pat.isPrefixOf (s.drop k) = true → k ≤ j := by
  intro i
  induction i with
  | zero =>
    intro j _ k hk _
    omega
  | succ n ih =>
    intro j h k hk hocc
    by_cases hp : pat.isPrefixOf (s.drop (n + 1)) = true
    · simp only [lastIndexFrom, hp, if_pos] at h
      cases h
      exact hk
    · simp only [lastIndexFrom, hp, if_neg, Bool.false_eq_true, not_false_eq_true] at h
      rcases Nat.lt_or_ge k (n + 1) with hlt | hge
      · exact ih j h k (by omega) hocc
      · have hkeq : k = n + 1 := by omega
        rw [hkeq] at hocc
        exact absurd hocc hp

theorem lastIndexFrom_none (s pat : List Char) :
    ∀ i, lastIndexFrom s pat i = none →
      ∀ k, k ≤ i → pat.isPrefixOf (s.drop k) = false := by
  intro i
  induction i with
  | zero =>
    intro h k hk
    interval_cases k
    by_cases hp : pat.isPrefixOf s = true
    · simp [lastIndexFrom, hp] at h
    · simp only [Bool.not_eq_true] at hp
      simpa using hp
  | succ n ih =>
    intro h k hk
    by_cases hp : pat.isPrefixOf (s.drop (n + 1)) = true
    · simp [lastIndexFrom, hp] at h
    · simp only [lastIndexFrom, hp, if_neg, Bool.false_eq_true, not_false_eq_true] at h
      rcases Nat.lt_or_ge k (n + 1) with hlt | hge
      · exact ih h k (by omega)
      · have hkeq : k = n + 1 := by omega
        rw [hkeq]
        simp only [Bool.not_eq_true] at hp
        exact hp

theorem lastIndexOf_some_occ (s pat : List Char) (j : Nat)
    (h : lastIndexOf s pat = some j) : pat.isPrefixOf (s.drop j) = true :=
  lastIndexFrom_some_occ s pat s.length j h

theorem lastIndexOf_max (s pat : List Char) (j : Nat) (hp : pat ≠ [])
    (h : lastIndexOf s pat = some j) :
    ∀ k, pat.isPrefixOf (s.drop k) = true → k ≤ j := by
  intro k hocc
  have hk : k ≤ s.length := by
    have := occurrence_le pat s k hp hocc
    have hpos : 0 < pat.length := List.length_pos.mpr hp
    omega
  exact lastIndexFrom_max s pat s.length j h k hk hocc

theorem lastIndexOf_none (s pat : List Char) (hp : pat ≠ [])
    (h : lastIndexOf s pat = none) :
    ∀ k, pat.isPrefixOf (s.drop k) = false := by
  intro k
  rcases le_or_lt k s.length with hk | hk
  · exact lastIndexFrom_none s pat s.length h k hk
  · by_cases hocc : pat.isPrefixOf (s.drop k) = true
    · exfalso
      have := occurrence_le pat s k hp hocc
      have hpos : 0 < pat.length := List.length_pos.mpr hp
      omega
    · simp only [Bool.not_eq_true] at hocc
      exact hocc

theorem lastIndexOf_eq_some_of (s pat : List Char) (j : Nat) (hp : pat ≠ [])
    (hocc : pat.isPrefixOf (s.drop j) = true)
    (hmax : ∀ k, pat.isPrefixOf (s.drop k) = true → k ≤ j) :
    lastIndexOf s pat = some j := by
  cases h : lastIndexOf s pat with
  | none => exact absurd hocc (by simp [lastIndexOf_none s pat hp h j])
  | some m =>
    have h1 : m ≤ j := hmax m (lastIndexOf_some_occ s pat m h)
    have h2 : j ≤ m := lastIndexOf_max s pat m hp h j hocc
    rw [Nat.le_antisymm h1 h2]

theorem firstIndexFrom_some_occ (s pat : List Char) :
    ∀ fuel i j, firstIndexFrom s pat i fuel = some j → pat.isPrefixOf (s.drop j) = true := by
  intro fuel
  induction fuel with
  | zero => intro i j h; simp [firstIndexFrom] at h
  | succ n ih =>
    intro i j h
    by_cases hp : pat.isPrefixOf (s.drop i) = true
    · simp only [firstIndexFrom, hp, if_pos] at h
      cases h
      exact hp
    · simp only [firstIndexFrom, hp, if_neg, Bool.false_eq_true, not_false_eq_true] at h
      exact ih (i + 1) j h

theorem firstIndexOf_some_occ (s pat : List Char) (j : Nat)
    (h : firstIndexOf s pat = some j) : pat.isPrefixOf (s.drop j) = true :=
  firstIndexFrom_some_occ s pat (s.length + 1) 0 j h

theorem sepChars_ne_nil (sep : LineSep) : sepChars sep ≠ [] := by
  cases sep <;> simp [sepChars]

theorem sepChars_length_pos (sep : LineSep) : 0 < (sepChars sep).length :=
  List.length_pos.mpr (sepChars_ne_nil sep)

theorem splitGo_ne_nil (sep : List Char) (fuel : Nat) (s : List Char) :
    splitGo sep fuel s ≠ [] := by
  cases fuel with
  | zero => simp [splitGo]
  | succ n =>
    cases h : firstIndexOf s sep with
    | none => simp [splitGo, h]
    | some i => simp [splitGo, h]

theorem splitOnSep_ne_nil (sep : LineSep) (s : List Char) : splitOnSep sep s ≠ [] :=
  splitGo_ne_nil (sepChars sep) (s.length + 1) s

theorem joinSep_cons (sep : LineSep) (x : List Char) (xs : List (List Char)) (h : xs ≠ []) :
    joinSep sep (x :: xs) = x ++ sepChars sep ++ joinSep sep xs := by
  cases xs with
  | nil => exact absurd rfl h
  | cons y ys => rfl

theorem joinSep_splitGo (sep : LineSep) :
    ∀ fuel (s : List Char), s.length < fuel →
      joinSep sep (splitGo (sepChars sep) fuel s) = s := by
  intro fuel
  induction fuel with
  | zero => intro s h; omega
  | succ n ih =>
    intro s h
    cases hf : firstIndexOf s (sepChars sep) with
    | none => simp [splitGo, hf, joinSep]
    | some i =>
      have hocc := firstIndexOf_some_occ s (sepChars sep) i hf
      have hlen := occurrence_le (sepChars sep) s i (sepChars_ne_nil sep) hocc
      have hpos := sepChars_length_pos sep
      have hrec : (s.drop (i + (sepChars sep).length)).length < n := by
        simp only [List.length_drop]
        omega
      simp only [splitGo, hf]
      rw [joinSep_cons sep _ _ (splitGo_ne_nil _ _ _), ih _ hrec]
      conv_rhs => rw [occurrence_decomp (sepChars sep) s i hocc]

theorem joinSep_splitOnSep (sep : LineSep) (s : List Char) :
    joinSep sep (splitOnSep sep s) = s :=
  joinSep_splitGo sep (s.length + 1) s (Nat.lt_succ_self _)

theorem joinSep_append (sep : LineSep) :
    ∀ (xs ys : List (List Char)), xs ≠ [] → ys ≠ [] →
      joinSep sep (xs ++ ys) = joinSep sep xs ++ sepChars sep ++ joinSep sep ys := by
  intro xs
  induction xs with
  | nil => intro ys h _; exact absurd rfl h
  | cons x xs ih =>
    intro ys _ hy
    cases hxs : xs with
    | nil => simpa using joinSep_cons sep x ys hy
    | cons z zs =>
      rw [← hxs, List.cons_append,
        joinSep_cons sep x (xs ++ ys) (by simp [hxs]),
        joinSep_cons sep x xs (by simp [hxs]), ih ys (by simp [hxs]) hy]
      simp [List.append_assoc]

/-! ### Facts about the chunk decomposition and the accumulation loop -/

theorem chunksGo_flatten (b : Nat) (hb : 1 ≤ b) :
    ∀ fuel (s : List Char), s.length ≤ fuel → (chunksGo b fuel s).flatten = s := by
  intro fuel
  induction fuel with
  | zero =>
    intro s h
    have : s = [] := List.eq_nil_of_length_eq_zero (by omega)
    simp [this, chunksGo]
  | succ n ih =>
    intro s h
    cases s with
    | nil => simp [chunksGo]
    | cons c cs =>
      have hrec : ((c :: cs).drop b).length ≤ n := by
        simp only [List.length_drop, List.length_cons]
        simp only [List.length_cons] at h
        omega
      simp only [chunksGo, List.flatten_cons, ih _ hrec, List.take_append_drop]

theorem chunksOf_flatten (b : Nat) (s : List Char) (hb : 1 ≤ b) :
    (chunksOf b s).flatten = s :=
  chunksGo_flatten b hb s.length s (Nat.le_refl _)

theorem chunksGo_mem_ne_nil (b : Nat) (hb : 1 ≤ b) :
    ∀ fuel (s : List Char), ∀ c ∈ chunksGo b fuel s, c ≠ [] := by
  intro fuel
  induction fuel with
  | zero => intro s c hc; simp [chunksGo] at hc
  | succ n ih =>
    intro s c hc
    cases s with
    | nil => simp [chunksGo] at hc
    | cons x xs =>
      simp only [chunksGo, List.mem_cons] at hc
      rcases hc with hc | hc
      · subst hc
        cases b with
        | zero => omega
        | succ m => simp
      · exact ih _ c hc

theorem chunksOf_mem_ne_nil (b : Nat) (s : List Char) (hb : 1 ≤ b) :
    ∀ c ∈ chunksOf b s, c ≠ [] :=
  chunksGo_mem_ne_nil b hb s.length s

theorem accumLoop_flatten (sep : List Char) :
    ∀ cs : List (List Char),
      (accumLoop sep cs).1 ++ (accumLoop sep cs).2.1.flatten = cs.flatten := by
  intro cs
  induction cs with
  | nil => simp [accumLoop]
  | cons c rest ih =>
    cases h : lastIndexOf c sep with
    | some j => simp [accumLoop, h]
    | none => simp [accumLoop, h, ← ih]

theorem accumLoop_none_rem (sep : List Char) :
    ∀ cs : List (List Char), (accumLoop sep cs).2.2 = none → (accumLoop sep cs).2.1 = [] := by
  intro cs
  induction cs with
  | nil => intro _; simp [accumLoop]
  | cons c rest ih =>
    intro h
    cases hli : lastIndexOf c sep with
    | some j => simp [accumLoop, hli] at h
    | none =>
      simp only [accumLoop, hli] at h ⊢
      cases hcut : (accumLoop sep rest).2.2 with
      | none => exact ih hcut
      | some m => rw [hcut] at h; simp at h

theorem accumLoop_rem_mem (sep : List Char) :
    ∀ cs : List (List Char), ∀ c ∈ (accumLoop sep cs).2.1, c ∈ cs := by
  intro cs
  induction cs with
  | nil => intro c hc; simp [accumLoop] at hc
  | cons x rest ih =>
    intro c hc
    cases hli : lastIndexOf x sep with
    | some j =>
      simp only [accumLoop, hli] at hc
      exact List.mem_cons_of_mem x hc
    | none =>
      simp only [accumLoop, hli] at hc
      exact List.mem_cons_of_mem x (ih c hc)

theorem accumLoop_rem_length (sep : List Char) :
    ∀ cs : List (List Char), cs ≠ [] → (accumLoop sep cs).2.1.length < cs.length := by
  intro cs
  induction cs with
  | nil => intro h; exact absurd rfl h
  | cons x rest ih =>
    intro _
    cases hli : lastIndexOf x sep with
    | some j => simp [accumLoop, hli]
    | none =>
      simp only [accumLoop, hli, List.length_cons]
      cases hrest : rest with
      | nil => simp [accumLoop]
      | cons y ys =>
        have hlt := ih (by rw [hrest]; simp)
        rw [hrest] at hlt
        omega

theorem accumLoop_cut_occ (sep : List Char) :
    ∀ (cs : List (List Char)) (ch : List Char) (rem' : List (List Char)) (i : Nat),
      accumLoop sep cs = (ch, rem', some i) → sep.isPrefixOf (ch.drop i) = true := by
  intro cs
  induction cs with
  | nil => intro ch rem' i h; simp [accumLoop] at h
  | cons x rest ih =>
    intro ch rem' i h
    cases hli : lastIndexOf x sep with
    | some j =>
      simp only [accumLoop, hli, Prod.mk.injEq, Option.some.injEq] at h
      obtain ⟨h1, _, h3⟩ := h
      subst h3
      rw [← h1]
      exact lastIndexOf_some_occ x sep j hli
    | none =>
      simp only [accumLoop, hli, Prod.mk.injEq] at h
      obtain ⟨h1, h2, h3⟩ := h
      cases hcut : (accumLoop sep rest).2.2 with
      | none => rw [hcut] at h3; simp at h3
      | some m =>
        rw [hcut] at h3
        simp only [Option.map] at h3
        simp only [Option.some.injEq] at h3
        have hrec := ih (accumLoop sep rest).1 (accumLoop sep rest).2.1 m
          (by rw [← hcut])
        rw [← h1, ← h3]
        have hdrop : (x ++ (accumLoop sep rest).1).drop (x.length + m) =
            (accumLoop sep rest).1.drop m := by
          rw [List.drop_append_eq_append_drop]
          simp
        rw [hdrop]
        exact hrec

theorem accumLoop_cut_max (sep : List Char) (hp : sep ≠ []) :
    ∀ (cs : List (List Char)) (ch : List Char) (rem' : List (List Char)) (i : Nat),
      accumLoop sep cs = (ch, rem', some i) →
      ∀ k, sep.isPrefixOf (ch.drop k) = true → k ≤ i := by
  intro cs
  induction cs with
  | nil => intro ch rem' i h; simp [accumLoop] at h
  | cons x rest ih =>
    intro ch rem' i h k hk
    cases hli : lastIndexOf x sep with
    | some j =>
      simp only [accumLoop, hli, Prod.mk.injEq, Option.some.injEq] at h
      obtain ⟨h1, _, h3⟩ := h
      subst h3
      rw [← h1] at hk
      exact lastIndexOf_max x sep j hp hli k hk
    | none =>
      simp only [accumLoop, hli, Prod.mk.injEq] at h
      obtain ⟨h1, h2, h3⟩ := h
      cases hcut : (accumLoop sep rest).2.2 with
      | none => rw [hcut] at h3; simp at h3
      | some m =>
        rw [hcut] at h3
        simp only [Option.map] at h3
        simp only [Option.some.injEq] at h3
        rcases Nat.lt_or_ge k x.length with hlt | hge
        · omega
        · have hrec := ih (accumLoop sep rest).1 (accumLoop sep rest).2.1 m
            (by rw [← hcut])
          have hdrop : ch.drop k = (accumLoop sep rest).1.drop (k - x.length) := by
            rw [← h1, List.drop_append_eq_append_drop]
            have hx : x.drop k = [] := List.drop_eq_nil_of_le hge
            simp [hx]
          rw [hdrop] at hk
          have := hrec (k - x.length) hk
          omega

theorem accumLoop_cut_lastIndexOf (sep : List Char) (hp : sep ≠ [])
    (cs : List (List Char)) (ch : List Char) (rem' : List (List Char)) (i : Nat)
    (h : accumLoop sep cs = (ch, rem', some i)) :
    lastIndexOf ch sep = some i :=
  lastIndexOf_eq_some_of ch sep i hp (accumLoop_cut_occ sep cs ch rem' i h)
    (accumLoop_cut_max sep hp cs ch rem' i h)

/-! ### Behaviour of `nextChunk` and the numbering stage -/

theorem nextChunk_found (o : LROptions) (s : LRState) (sep : LineSep)
    (ch : List Char) (rem' : List (List Char)) (i : Nat)
    (hsep : s.separator = some sep)
    (hacc : accumLoop (sepChars sep) s.rem = (ch, rem', some i))
    (hne : rem' ≠ []) :
    nextChunk o s =
      (s.cutted.getD [] ++ ch.take i,
       { s with rem := rem', cutted := some (ch.drop (i + (sepChars sep).length)) }) := by
  have hempty : rem'.isEmpty = false := by
    cases rem' with
    | nil => exact absurd rfl hne
    | cons a l => rfl
  simp [nextChunk, hsep, hacc, hempty]

theorem nextChunk_exhausted (o : LROptions) (s : LRState) (sep : LineSep)
    (hsep : s.separator = some sep)
    (hrem : (accumLoop (sepChars sep) s.rem).2.1 = []) :
    nextChunk o s =
      (s.cutted.getD [] ++ s.rem.flatten, { s with rem := [], cutted := none }) := by
  have hch : (accumLoop (sepChars sep) s.rem).1 = s.rem.flatten := by
    have := accumLoop_flatten (sepChars sep) s.rem
    rw [hrem] at this
    simpa using this
  cases hcut : (accumLoop (sepChars sep) s.rem).2.2 with
  | none =>
    have hacc : accumLoop (sepChars sep) s.rem = (s.rem.flatten, [], none) := by
      rw [← hch, ← hrem, ← hcut]
    simp [nextChunk, hsep, hacc]
  | some i =>
    have hacc : accumLoop (sepChars sep) s.rem = (s.rem.flatten, [], some i) := by
      rw [← hch, ← hrem, ← hcut]
    simp [nextChunk, hsep, hacc, List.take_append_drop]

theorem processTexts_eq (o : LROptions) :
    ∀ (texts : List (List Char)) (cnt : Nat) (buf : List (List Char × Nat)),
      processTexts o texts cnt buf =
        (cnt + texts.length,
         buf ++ (texts.enumFrom cnt).filterMap fun p =>
           if skipHas (o.skipNumbers.getD []) (p.1 + 1) then none
           else if o.skipBlank && jsTrimEmpty p.2 then none
           else some (p.2, p.1 + 1)) := by
  intro texts
  induction texts with
  | nil => intro cnt buf; simp [processTexts, List.enumFrom]
  | cons t ts ih =>
    intro cnt buf
    simp only [processTexts, List.enumFrom, List.filterMap_cons]
    by_cases h1 : skipHas (o.skipNumbers.getD []) (cnt + 1) = true
    · rw [if_pos h1, ih, if_pos h1]
      simp only [Prod.mk.injEq, List.length_cons]
      exact ⟨by omega, trivial⟩
    · rw [if_neg h1, if_neg h1]
      by_cases h2 : (o.skipBlank && jsTrimEmpty t) = true
      · rw [if_pos h2, ih, if_pos h2]
        simp only [Prod.mk.injEq, List.length_cons]
        exact ⟨by omega, trivial⟩
      · rw [if_neg h2, if_neg h2, ih]
        simp only [Prod.mk.injEq, List.length_cons]
        exact ⟨by omega, by simp⟩

theorem skipHas_nil (n : Nat) : skipHas [] n = false := rfl

theorem processTexts_nofilter (o : LROptions)
    (hsn : o.skipNumbers = none) (hsb : o.skipBlank = false)
    (texts : List (List Char)) (cnt : Nat) (buf : List (List Char × Nat)) :
    processTexts o texts cnt buf =
      (cnt + texts.length,
       buf ++ (texts.enumFrom cnt).map fun p => (p.2, p.1 + 1)) := by
  rw [processTexts_eq]
  simp only [hsn, hsb, Option.getD_none, skipHas_nil, Bool.false_and, Bool.false_eq_true,
    if_neg, ite_false]
  rw [← List.filterMap_eq_map]
  rfl

theorem enumFrom_map_snd (α : Type) :
    ∀ (l : List α) (n : Nat), (List.enumFrom n l).map Prod.snd = l := by
  intro l
  induction l with
  | nil => intro n; rfl
  | cons x xs ih => intro n; simp [List.enumFrom, ih]

theorem pairs_map_fst (texts : List (List Char)) (cnt : Nat) :
    (((texts.enumFrom cnt).map fun p => (p.2, p.1 + 1)).map Prod.fst) = texts := by
  rw [List.map_map]
  have : (Prod.fst ∘ fun p : Nat × List Char => (p.2, p.1 + 1)) = Prod.snd := rfl
  rw [this, enumFrom_map_snd]

theorem enumFrom_ne_nil (α : Type) (l : List α) (n : Nat) (h : l ≠ []) :
    List.enumFrom n l ≠ [] := by
  cases l with
  | nil => exact absurd rfl h
  | cons x xs => simp [List.enumFrom]

theorem drain_closed (o : LROptions) (limit : Option Nat) (s : LRState) (fuel : Nat)
    (h : lrIsClosed s = true) : drainAll o limit s fuel = ([], s) := by
  cases fuel with
  | zero => rfl
  | succ n => simp [drainAll, h]

theorem lrIsClosed_eq_false_of_rem (s : LRState) (h : s.rem ≠ []) :
    lrIsClosed s = false := by
  cases hrem : s.rem with
  | nil => exact absurd hrem h
  | cons c cs => simp [lrIsClosed, hrem]

theorem lrIsClosed_true_elim (s : LRState) (h : lrIsClosed s = true) :
    s.rem = [] ∧ s.cutted = none ∧ s.buffer = [] := by
  simp only [lrIsClosed, Bool.and_eq_true, List.isEmpty_iff, Option.isNone_iff_eq_none] at h
  exact ⟨h.1.1, h.1.2, h.2⟩

theorem read_none_found (o : LROptions) (s : LRState) (sep : LineSep)
    (ch : List Char) (rem' : List (List Char)) (i : Nat)
    (hc : o.content ≠ []) (hsb : o.skipBlank = false) (hsn : o.skipNumbers = none)
    (hsep : s.separator = some sep) (hbuf : s.buffer = [])
    (hacc : accumLoop (sepChars sep) s.rem = (ch, rem', some i))
    (hne : rem' ≠ []) :
    readLinesWithNumbers o s none =
      ((((splitOnSep sep (s.cutted.getD [] ++ ch.take i)).enumFrom s.count).map
          fun p => (p.2, p.1 + 1)),
       { s with rem := rem',
                cutted := some (ch.drop (i + (sepChars sep).length)),
                count := s.count + (splitOnSep sep (s.cutted.getD [] ++ ch.take i)).length,
                buffer := [] }) := by
  have hlen : ¬o.content.length = 0 := by
    have := List.length_pos.mpr hc
    omega
  have hnc := nextChunk_found o s sep ch rem' i hsep hacc hne
  have hremE : rem'.isEmpty = false := by
    cases rem' with
    | nil => exact absurd rfl hne
    | cons a l => rfl
  simp only [readLinesWithNumbers, if_neg hlen, hnc, lrIsClosed, hremE, Bool.false_and,
    Bool.not_false, Bool.or_true, if_pos, ite_true, hsep, Option.getD_some, hbuf,
    processTexts_nofilter o hsn hsb, List.nil_append, List.take_length, List.drop_length]

theorem read_none_exhausted (o : LROptions) (s : LRState) (sep : LineSep)
    (hc : o.content ≠ []) (hsb : o.skipBlank = false) (hsn : o.skipNumbers = none)
    (hsep : s.separator = some sep) (hbuf : s.buffer = [])
    (hrem : (accumLoop (sepChars sep) s.rem).2.1 = [])
    (hd : s.cutted.getD [] ++ s.rem.flatten ≠ []) :
    readLinesWithNumbers o s none =
      ((((splitOnSep sep (s.cutted.getD [] ++ s.rem.flatten)).enumFrom s.count).map
          fun p => (p.2, p.1 + 1)),
       { s with rem := [], cutted := none,
                count := s.count + (splitOnSep sep (s.cutted.getD [] ++ s.rem.flatten)).length,
                buffer := [] }) := by
  have hlen : ¬o.content.length = 0 := by
    have := List.length_pos.mpr hc
    omega
  have hnc := nextChunk_exhausted o s sep hsep hrem
  have hdata : (s.cutted.getD [] ++ s.rem.flatten).isEmpty = false := by
    cases hx : s.cutted.getD [] ++ s.rem.flatten with
    | nil => exact absurd hx hd
    | cons a l => rfl
  simp only [readLinesWithNumbers, if_neg hlen, hnc, hdata, Bool.not_false, Bool.true_or,
    if_pos, ite_true, hsep, Option.getD_some, hbuf,
    processTexts_nofilter o hsn hsb, List.nil_append, List.take_length, List.drop_length]

theorem pairs_ne_nil (texts : List (List Char)) (cnt : Nat) (h : texts ≠ []) :
    ((texts.enumFrom cnt).map fun p => (p.2, p.1 + 1)) ≠ [] := by
  intro heq
  rw [List.map_eq_nil_iff] at heq
  exact enumFrom_ne_nil _ texts cnt h heq

theorem flatten_ne_nil (cs : List (List Char)) (hne : cs ≠ [])
    (hnil : ∀ c ∈ cs, c ≠ []) : cs.flatten ≠ [] := by
  cases cs with
  | nil => exact absurd rfl hne
  | cons c rest =>
    intro heq
    rw [List.flatten_cons, List.append_eq_nil] at heq
    exact hnil c (List.mem_cons_self c rest) heq.1

theorem drain_none_invariant (o : LROptions) (sep : LineSep)
    (hsb : o.skipBlank = false) (hsn : o.skipNumbers = none) (hc : o.content ≠ []) :
    ∀ (fuel : Nat) (s : LRState), s.separator = some sep → s.buffer = [] →
      (∀ t, s.cutted = some t → s.rem ≠ []) →
      (∀ c ∈ s.rem, c ≠ []) →
      s.rem.length < fuel →
      joinSep sep (((drainAll o none s fuel).1).map Prod.fst) =
          s.cutted.getD [] ++ s.rem.flatten
        ∧ (lrIsClosed s = false → (drainAll o none s fuel).1 ≠ [])
        ∧ lrIsClosed (drainAll o none s fuel).2 = true := by
  intro fuel
  induction fuel with
  | zero => intro s _ _ _ _ hlt; omega
  | succ n ih =>
    intro s hsep hbuf hcut hnil hlt
    by_cases hclosed : lrIsClosed s = true
    · obtain ⟨h1, h2, _⟩ := lrIsClosed_true_elim s hclosed
      rw [drain_closed o none s (n + 1) hclosed]
      refine ⟨by simp [joinSep, h1, h2], ?_, hclosed⟩
      intro hcl
      rw [hclosed] at hcl
      cases hcl
    · have hclosedF : lrIsClosed s = false := by
        cases h : lrIsClosed s with
        | false => rfl
        | true => exact absurd h hclosed
      have hremne : s.rem ≠ [] := by
        intro hre
        cases hcutv : s.cutted with
        | some t => exact (hcut t hcutv) hre
        | none => exact hclosed (by simp [lrIsClosed, hre, hcutv, hbuf])
      have hflat : s.rem.flatten ≠ [] := flatten_ne_nil s.rem hremne hnil
      have hstep : drainAll o none s (n + 1) =
          ((readLinesWithNumbers o s none).1 ++
             (drainAll o none (readLinesWithNumbers o s none).2 n).1,
           (drainAll o none (readLinesWithNumbers o s none).2 n).2) := by
        simp [drainAll, hclosedF]
      rcases hacc : accumLoop (sepChars sep) s.rem with ⟨ch, rem', cut⟩
      cases hrem' : rem' with
      | nil =>
        -- the source is exhausted during this pull: final flush
        subst hrem'
        have hrd := read_none_exhausted o s sep hc hsb hsn hsep hbuf
          (by rw [hacc]) (by
            intro heq
            rw [List.append_eq_nil] at heq
            exact hflat heq.2)
        have hq1 : (readLinesWithNumbers o s none).1 =
            ((splitOnSep sep (s.cutted.getD [] ++ s.rem.flatten)).enumFrom s.count).map
              (fun p => (p.2, p.1 + 1)) := by
          rw [hrd]
        have hclosedS1 : lrIsClosed (readLinesWithNumbers o s none).2 = true := by
          rw [hrd]
          simp [lrIsClosed]
        have hdrain := drain_closed o none (readLinesWithNumbers o s none).2 n hclosedS1
        rw [hstep, hdrain, hq1]
        refine ⟨?_, ?_, by simpa using hclosedS1⟩
        · simp only [List.append_nil]
          rw [pairs_map_fst, joinSep_splitOnSep]
        · intro _
          simp only [List.append_nil]
          exact pairs_ne_nil _ _ (splitOnSep_ne_nil sep _)
      | cons c1 cs1 =>
        -- a separator was found and the source still has chunks
        have hremne' : rem' ≠ [] := by rw [hrem']; simp
        rw [← hrem'] at *
        cases hcutv : cut with
        | none =>
          exfalso
          have hall := accumLoop_none_rem (sepChars sep) s.rem (by rw [hacc, hcutv])
          rw [hacc] at hall
          simp only at hall
          exact hremne' hall
        | some i =>
          subst hcutv
          have hrd := read_none_found o s sep ch rem' i hc hsb hsn hsep hbuf hacc hremne'
          have hq1 : (readLinesWithNumbers o s none).1 =
              ((splitOnSep sep (s.cutted.getD [] ++ ch.take i)).enumFrom s.count).map
                (fun p => (p.2, p.1 + 1)) := by
            rw [hrd]
          have hs1rem : (readLinesWithNumbers o s none).2.rem = rem' := by rw [hrd]
          have hs1cut : (readLinesWithNumbers o s none).2.cutted =
              some (ch.drop (i + (sepChars sep).length)) := by rw [hrd]
          have hs1sep : (readLinesWithNumbers o s none).2.separator = some sep := by
            rw [hrd]
            exact hsep
          have hs1buf : (readLinesWithNumbers o s none).2.buffer = [] := by rw [hrd]
          have hih := ih (readLinesWithNumbers o s none).2 hs1sep hs1buf
            (by
              intro t _
              rw [hs1rem]
              exact hremne')
            (by
              intro c hcmem
              rw [hs1rem] at hcmem
              exact hnil c (accumLoop_rem_mem (sepChars sep) s.rem c (by rw [hacc]; exact hcmem)))
            (by
              rw [hs1rem]
              have hlen := accumLoop_rem_length (sepChars sep) s.rem hremne
              rw [hacc] at hlen
              simp only at hlen
              omega)
          obtain ⟨ihjoin, ihne, ihclosed⟩ := hih
          have hclosedS1 : lrIsClosed (readLinesWithNumbers o s none).2 = false := by
            apply lrIsClosed_eq_false_of_rem
            rw [hs1rem]
            exact hremne'
          have hrestne := ihne hclosedS1
          rw [hs1cut, hs1rem] at ihjoin
          simp only [Option.getD_some] at ihjoin
          have hoccur := accumLoop_cut_occ (sepChars sep) s.rem ch rem' i hacc
          have hflatten := accumLoop_flatten (sepChars sep) s.rem
          rw [hacc] at hflatten
          simp only at hflatten
          rw [hstep]
          refine ⟨?_, ?_, by simpa using ihclosed⟩
          · rw [List.map_append, hq1, pairs_map_fst,
              joinSep_append sep _ _ (splitOnSep_ne_nil sep _)
                (by
                  intro heq
                  rw [List.map_eq_nil_iff] at heq
                  exact hrestne (by simp [heq])),
              joinSep_splitOnSep, ihjoin, ← hflatten]
            have hdecomp := occurrence_decomp (sepChars sep) ch i hoccur
            conv_rhs => rw [hdecomp]
            simp [List.append_assoc]
          · intro _
            intro heq
            rw [List.append_eq_nil] at heq
            have := heq.1
            rw [hq1] at this
            exact pairs_ne_nil _ _ (splitOnSep_ne_nil sep _) this

/-! ### Detection loop characterization and option congruences -/

theorem lastIndexOf_isSome_eq (c pat : List Char) (hp : pat ≠ []) :
    (lastIndexOf c pat).isSome = hasOccurrence pat c := by
  cases h : lastIndexOf c pat with
  | some j =>
    have hocc := lastIndexOf_some_occ c pat j h
    have hle : j + pat.length ≤ c.length := occurrence_le pat c j hp hocc
    have hpos : 0 < pat.length := List.length_pos.mpr hp
    simp only [Option.isSome_some]
    rw [eq_comm]
    simp only [hasOccurrence, List.any_eq_true]
    exact ⟨j, by simp only [List.mem_range]; omega, hocc⟩
  | none =>
    have hocc : hasOccurrence pat c = false := by
      simp only [hasOccurrence]
      rw [List.any_eq_false]
      intro i _
      have hn := lastIndexOf_none c pat hp h i
      simp [hn]
    simp [hocc]

theorem detectLoop_eq_findSome :
    ∀ cs : List (List Char), detectLoop cs = cs.findSome? detectChunk := by
  intro cs
  induction cs with
  | nil => rfl
  | cons c rest ih =>
    have h1 := lastIndexOf_isSome_eq c (sepChars LineSep.crlf) (sepChars_ne_nil _)
    have h2 := lastIndexOf_isSome_eq (c.tail.dropLast) (sepChars LineSep.lf) (sepChars_ne_nil _)
    have h3 := lastIndexOf_isSome_eq (c.tail.dropLast) (sepChars LineSep.cr) (sepChars_ne_nil _)
    simp only [detectLoop, List.findSome?_cons, detectChunk, List.drop_one, h1, h2, h3]
    by_cases hc1 : hasOccurrence (sepChars LineSep.crlf) c = true
    · simp [hc1]
    · simp only [Bool.not_eq_true] at hc1
      by_cases hc2 : hasOccurrence (sepChars LineSep.lf) c.tail.dropLast = true
      · simp [hc1, hc2]
      · simp only [Bool.not_eq_true] at hc2
        by_cases hc3 : hasOccurrence (sepChars LineSep.cr) c.tail.dropLast = true
        · simp [hc1, hc2, hc3]
        · simp only [Bool.not_eq_true] at hc3
          simp [hc1, hc2, hc3, ih]

theorem lrChunks_congr (o₁ o₂ : LROptions) (hcont : o₁.content = o₂.content)
    (hb : o₁.bufferSize = o₂.bufferSize) : lrChunks o₁ = lrChunks o₂ := by
  simp [lrChunks, hcont, hb]

theorem setSeparator_congr (o₁ o₂ : LROptions) (hch : lrChunks o₁ = lrChunks o₂)
    (s : LRState) : setSeparator o₁ s = setSeparator o₂ s := by
  simp [setSeparator, hch]

theorem nextChunk_congr (o₁ o₂ : LROptions) (hch : lrChunks o₁ = lrChunks o₂)
    (s : LRState) : nextChunk o₁ s = nextChunk o₂ s := by
  simp only [nextChunk, setSeparator_congr o₁ o₂ hch s]

theorem processTexts_congr (o₁ o₂ : LROptions) (hbl : o₁.skipBlank = o₂.skipBlank)
    (hs : ∀ n, skipHas (o₁.skipNumbers.getD []) n = skipHas (o₂.skipNumbers.getD []) n) :
    ∀ (texts : List (List Char)) (cnt : Nat) (buf : List (List Char × Nat)),
      processTexts o₁ texts cnt buf = processTexts o₂ texts cnt buf := by
  intro texts
  induction texts with
  | nil => intro cnt buf; rfl
  | cons t ts ih =>
    intro cnt buf
    simp only [processTexts, hbl, hs, ih]

theorem readLWN_congr (o₁ o₂ : LROptions) (hcont : o₁.content = o₂.content)
    (hb : o₁.bufferSize = o₂.bufferSize)
    (hbl : o₁.skipBlank = o₂.skipBlank)
    (hs : ∀ n, skipHas (o₁.skipNumbers.getD []) n = skipHas (o₂.skipNumbers.getD []) n)
    (s : LRState) (limit : Option Nat) :
    readLinesWithNumbers o₁ s limit = readLinesWithNumbers o₂ s limit := by
  simp only [readLinesWithNumbers, hcont,
    nextChunk_congr o₁ o₂ (lrChunks_congr o₁ o₂ hcont hb) s,
    processTexts_congr o₁ o₂ hbl hs]

theorem drainAll_congr (o₁ o₂ : LROptions) (hcont : o₁.content = o₂.content)
    (hb : o₁.bufferSize = o₂.bufferSize)
    (hbl : o₁.skipBlank = o₂.skipBlank)
    (hs : ∀ n, skipHas (o₁.skipNumbers.getD []) n = skipHas (o₂.skipNumbers.getD []) n)
    (limit : Option Nat) :
    ∀ (fuel : Nat) (s : LRState), drainAll o₁ limit s fuel = drainAll o₂ limit s fuel := by
  intro fuel
  induction fuel with
  | zero => intro s; rfl
  | succ n ih =>
    intro s
    simp only [drainAll, readLWN_congr o₁ o₂ hcont hb hbl hs s limit, ih]

/-! ### The claims -/

/-- C1: for every file content consisting of N lines joined by the configured
line separator and for every chunk/buffer size, reading all lines with no
filters (no skipBlank, no skipNumbers) until the reader reports closed and
rejoining the returned line texts with the same separator reproduces the
original content exactly. -/
theorem c1_roundtrip (sep : LineSep) (lines : List (List Char)) (b : Nat) (hb : 1 ≤ b) :
    joinSep sep
        (((drainAll (plainOpts sep b (joinSep sep lines)) none
              (initState (plainOpts sep b (joinSep sep lines)))
              ((lrChunks (plainOpts sep b (joinSep sep lines))).length + 1)).1).map Prod.fst) =
      joinSep sep lines ∧
    lrIsClosed ((drainAll (plainOpts sep b (joinSep sep lines)) none
        (initState (plainOpts sep b (joinSep sep lines)))
        ((lrChunks (plainOpts sep b (joinSep sep lines))).length + 1)).2) = true := by
  by_cases hc : joinSep sep lines = []
  · have hchunks : lrChunks (plainOpts sep b (joinSep sep lines)) = [] := by
      simp [lrChunks, plainOpts, hc, chunksOf, chunksGo]
    have hinit : lrIsClosed (initState (plainOpts sep b (joinSep sep lines))) = true := by
      simp [initState, lrIsClosed, hchunks]
    rw [drain_closed _ _ _ _ hinit]
    exact ⟨by simpa [joinSep] using hc.symm, hinit⟩
  · obtain ⟨h1, _, h3⟩ :=
      drain_none_invariant (plainOpts sep b (joinSep sep lines)) sep rfl rfl hc
        ((lrChunks (plainOpts sep b (joinSep sep lines))).length + 1)
        (initState (plainOpts sep b (joinSep sep lines)))
        rfl rfl
        (by intro t ht; simp [initState] at ht)
        (by intro c hcm; exact chunksOf_mem_ne_nil b _ hb c hcm)
        (Nat.lt_succ_self _)
    refine ⟨?_, h3⟩
    rw [h1]
    simp only [initState, Option.getD_none, List.nil_append]
    simp [lrChunks, plainOpts, chunksOf_flatten b _ hb]

/-- C1 witness: the round-trip at a concrete input, file "ab\n\nc" read with
buffer size 2. -/
theorem c1_roundtrip_witness :
    1 ≤ 2 ∧
    (joinSep LineSep.lf
        (((drainAll (plainOpts LineSep.lf 2 (joinSep LineSep.lf [['a', 'b'], [], ['c']])) none
              (initState (plainOpts LineSep.lf 2 (joinSep LineSep.lf [['a', 'b'], [], ['c']])))
              ((lrChunks (plainOpts LineSep.lf 2 (joinSep LineSep.lf [['a', 'b'], [], ['c']]))).length + 1)).1).map Prod.fst) =
      joinSep LineSep.lf [['a', 'b'], [], ['c']] ∧
    lrIsClosed ((drainAll (plainOpts LineSep.lf 2 (joinSep LineSep.lf [['a', 'b'], [], ['c']])) none
        (initState (plainOpts LineSep.lf 2 (joinSep LineSep.lf [['a', 'b'], [], ['c']])))
        ((lrChunks (plainOpts LineSep.lf 2 (joinSep LineSep.lf [['a', 'b'], [], ['c']]))).length + 1)).2) = true) :=
  ⟨by decide, c1_roundtrip LineSep.lf [['a', 'b'], [], ['c']] 2 (by decide)⟩

/-- C2: the claim fails on the code.  On the 3-line file "a\nb\nc" read with
batch limit 2, the second call finds the source exhausted but the queue
non-empty, so the composite isClosed guard does not stop it from splitting
the empty blob: a phantom empty line numbered 4 is produced, and the
delivered numbers are 1,2,3,4 instead of 1,2,3. -/
theorem c2_phantom_line :
    (splitOnSep LineSep.lf (plainOpts LineSep.lf 10 ['a', '\n', 'b', '\n', 'c']).content).length = 3 ∧
    (drainAll (plainOpts LineSep.lf 10 ['a', '\n', 'b', '\n', 'c']) (some 2)
        (initState (plainOpts LineSep.lf 10 ['a', '\n', 'b', '\n', 'c'])) 4).1 =
      [(['a'], 1), (['b'], 2), (['c'], 3), ([], 4)] ∧
    lrIsClosed ((drainAll (plainOpts LineSep.lf 10 ['a', '\n', 'b', '\n', 'c']) (some 2)
        (initState (plainOpts LineSep.lf 10 ['a', '\n', 'b', '\n', 'c'])) 4).2) = true := by
  decide

/-- C3: for each raw line of a joined blob, in order, the counter is
incremented exactly once (also for discarded lines); the line is discarded
when its number is in the skip set, else when blank-skipping is on and it
trims to nothing; otherwise (text, number) is enqueued, the number being the
line's position in the raw stream (counter before the blob + offset + 1). -/
theorem c3_numbering_filter (o : LROptions) (texts : List (List Char)) (cnt : Nat)
    (buf : List (List Char × Nat)) :
    processTexts o texts cnt buf =
      (cnt + texts.length,
       buf ++ (texts.enumFrom cnt).filterMap fun p =>
         if skipHas (o.skipNumbers.getD []) (p.1 + 1) then none
         else if o.skipBlank && jsTrimEmpty p.2 then none
         else some (p.2, p.1 + 1)) :=
  processTexts_eq o texts cnt buf

/-- C4 counterexample: the code searches only the newest pulled chunk for
the separator, not the cumulative buffer.  With separator "\r\n" and chunks
"a\r" / "\nb" / "c\r\nd" / "t", the cumulative buffer already contains
"\r\n" after the second pull, so the claim's algorithm stops there and
returns "a"; the code keeps pulling and returns "a\r\nbc". -/
theorem c4_counterexample :
    nextChunk (plainOpts LineSep.crlf 2 [])
        ⟨[['a', '\r'], ['\n', 'b'], ['c', '\r', '\n', 'd'], ['t']], none, some LineSep.crlf, 0, []⟩ ≠
      nextChunkCumulative (plainOpts LineSep.crlf 2 [])
        ⟨[['a', '\r'], ['\n', 'b'], ['c', '\r', '\n', 'd'], ['t']], none, some LineSep.crlf, 0, []⟩ := by
  decide

/-- C4 (amended): the splitter checks only the newest pulled chunk for the
separator; when it finds one before the source is exhausted, the cut
position is nevertheless the last occurrence of the separator in the whole
cumulative buffer, the returned blob is the pending fragment plus the
accumulated text up to the cut (the separator token removed), and the
remainder after the cut becomes the new pending fragment. -/
theorem c4_newest_chunk_cut (o : LROptions) (s : LRState) (sep : LineSep)
    (ch : List Char) (rem' : List (List Char)) (i : Nat)
    (hsep : s.separator = some sep)
    (hacc : accumLoop (sepChars sep) s.rem = (ch, rem', some i))
    (hne : rem' ≠ []) :
    nextChunk o s =
      (s.cutted.getD [] ++ ch.take i,
       { s with rem := rem', cutted := some (ch.drop (i + (sepChars sep).length)) }) ∧
    lastIndexOf ch (sepChars sep) = some i :=
  ⟨nextChunk_found o s sep ch rem' i hsep hacc hne,
   accumLoop_cut_lastIndexOf (sepChars sep) (sepChars_ne_nil sep) s.rem ch rem' i hacc⟩

/-- C4 witness: the amended statement at a concrete state with pending
fragment "p", chunks "ab\nc" / "t" and separator "\n". -/
theorem c4_newest_chunk_cut_witness :
    (⟨[['a', 'b', '\n', 'c'], ['t']], some ['p'], some LineSep.lf, 0, []⟩ : LRState).separator =
        some LineSep.lf ∧
    accumLoop (sepChars LineSep.lf) [['a', 'b', '\n', 'c'], ['t']] =
        (['a', 'b', '\n', 'c'], [['t']], some 2) ∧
    ([['t']] : List (List Char)) ≠ [] ∧
    (nextChunk (plainOpts LineSep.lf 4 ['x'])
        ⟨[['a', 'b', '\n', 'c'], ['t']], some ['p'], some LineSep.lf, 0, []⟩ =
      (['p', 'a', 'b'], ⟨[['t']], some ['c'], some LineSep.lf, 0, []⟩) ∧
     lastIndexOf ['a', 'b', '\n', 'c'] (sepChars LineSep.lf) = some 2) :=
  ⟨rfl, by decide, by decide,
   c4_newest_chunk_cut (plainOpts LineSep.lf 4 ['x'])
     ⟨[['a', 'b', '\n', 'c'], ['t']], some ['p'], some LineSep.lf, 0, []⟩
     LineSep.lf ['a', 'b', '\n', 'c'] [['t']] 2 rfl (by decide) (by decide)⟩

/-- C5 counterexample: with an explicitly supplied separator "\r" on file
"a\nb", the first full read yields one line "a\nb"; resetReader deletes the
supplied separator, so the second read auto-detects "\n" and yields two
lines "a", "b" — the two passes differ. -/
theorem c5_counterexample :
    (drainAll (plainOpts LineSep.cr 10 ['a', '\n', 'b']) none
        (resetReader (plainOpts LineSep.cr 10 ['a', '\n', 'b'])
          (drainAll (plainOpts LineSep.cr 10 ['a', '\n', 'b']) none
            (initState (plainOpts LineSep.cr 10 ['a', '\n', 'b'])) 3).2) 3).1 ≠
      (drainAll (plainOpts LineSep.cr 10 ['a', '\n', 'b']) none
        (initState (plainOpts LineSep.cr 10 ['a', '\n', 'b'])) 3).1 := by
  decide

/-- C5 (amended): for a reader constructed without an explicit lineSeparator
(auto-detection), resetReader returns the reader to exactly the freshly
constructed state, so a full re-read replays the same output; with an
explicitly supplied separator the reset clears it and the next read
re-detects one from the file, which can change the output. -/
theorem c5_reset_replay (o : LROptions) (h : o.lineSeparator = none) (s : LRState)
    (limit : Option Nat) (fuel : Nat) :
    resetReader o s = initState o ∧
    drainAll o limit (resetReader o s) fuel = drainAll o limit (initState o) fuel := by
  have heq : resetReader o s = initState o := by
    simp [resetReader, initState, h]
  exact ⟨heq, by rw [heq]⟩

/-- C5 witness: the amended statement on file "a\nb" with auto-detection,
resetting after a full read. -/
theorem c5_reset_replay_witness :
    (LROptions.mk ['a', '\n', 'b'] 10 none false none).lineSeparator = none ∧
    (resetReader (LROptions.mk ['a', '\n', 'b'] 10 none false none)
        (drainAll (LROptions.mk ['a', '\n', 'b'] 10 none false none) none
          (initState (LROptions.mk ['a', '\n', 'b'] 10 none false none)) 3).2 =
      initState (LROptions.mk ['a', '\n', 'b'] 10 none false none) ∧
    drainAll (LROptions.mk ['a', '\n', 'b'] 10 none false none) none
        (resetReader (LROptions.mk ['a', '\n', 'b'] 10 none false none)
          (drainAll (LROptions.mk ['a', '\n', 'b'] 10 none false none) none
            (initState (LROptions.mk ['a', '\n', 'b'] 10 none false none)) 3).2) 3 =
      drainAll (LROptions.mk ['a', '\n', 'b'] 10 none false none) none
        (initState (LROptions.mk ['a', '\n', 'b'] 10 none false none)) 3) :=
  ⟨rfl, c5_reset_replay (LROptions.mk ['a', '\n', 'b'] 10 none false none) rfl
    (drainAll (LROptions.mk ['a', '\n', 'b'] 10 none false none) none
      (initState (LROptions.mk ['a', '\n', 'b'] 10 none false none)) 3).2 none 3⟩

/-- C6: when no separator was declared, detection pulls chunks in order; a
chunk selects "\r\n" when it contains it anywhere, else "\n" and then "\r"
when its interior (first and last character removed) contains them; the
first chunk that selects decides the separator, "\r\n" is the default when
the source is exhausted with no hit, and afterwards the source is rewound
to the beginning, the rest of the state untouched. -/
theorem c6_separator_detection (o : LROptions) (s : LRState) :
    setSeparator o s =
      ({ s with rem := lrChunks o,
                separator := some ((s.rem.findSome? detectChunk).getD LineSep.crlf) }) := by
  simp [setSeparator, detectLoop_eq_findSome]

/-- C7: when the source becomes exhausted while the splitter accumulates,
the returned blob is the pending fragment followed by all pulled text
(including any tail past a found separator), and the pending fragment is
cleared. -/
theorem c7_exhausted_flush (o : LROptions) (s : LRState) (sep : LineSep)
    (hsep : s.separator = some sep)
    (hrem : (accumLoop (sepChars sep) s.rem).2.1 = []) :
    nextChunk o s =
      (s.cutted.getD [] ++ s.rem.flatten, { s with rem := [], cutted := none }) :=
  nextChunk_exhausted o s sep hsep hrem

/-- C7 witness: the exhausted flush at a concrete state with pending
fragment "p" and a last chunk "a\nbt" whose tail "bt" lies past the found
separator. -/
theorem c7_exhausted_flush_witness :
    (⟨[['a', '\n', 'b', 't']], some ['p'], some LineSep.lf, 0, []⟩ : LRState).separator =
        some LineSep.lf ∧
    (accumLoop (sepChars LineSep.lf) [['a', '\n', 'b', 't']]).2.1 = [] ∧
    nextChunk (plainOpts LineSep.lf 4 ['a', '\n', 'b', 't'])
        ⟨[['a', '\n', 'b', 't']], some ['p'], some LineSep.lf, 0, []⟩ =
      (['p', 'a', '\n', 'b', 't'], ⟨[], none, some LineSep.lf, 0, []⟩) :=
  ⟨rfl, by decide,
   c7_exhausted_flush (plainOpts LineSep.lf 4 ['a', '\n', 'b', 't'])
     ⟨[['a', '\n', 'b', 't']], some ['p'], some LineSep.lf, 0, []⟩ LineSep.lf rfl (by decide)⟩

/-- C8: for a zero-length source every read variant returns an empty result
immediately, leaving the state untouched (no chunk fetch, no counter
advance), and the freshly constructed reader reports closed. -/
theorem c8_empty_source (o : LROptions) (h : o.content = []) (s : LRState)
    (limit : Option Nat) (fuel : Nat) :
    readLinesWithNumbers o s limit = ([], s) ∧
    readLines o s limit = ([], s) ∧
    readLineLoop o s fuel = (none, s) ∧
    readLineOnly o s fuel = (none, s) ∧
    lrIsClosed (initState o) = true := by
  have hz : o.content.length = 0 := by rw [h]; rfl
  have h1 : readLinesWithNumbers o s limit = ([], s) := by
    simp [readLinesWithNumbers, hz]
  have hone : ∀ s' : LRState, readLinesWithNumbers o s' (some 1) = ([], s') := by
    intro s'
    simp [readLinesWithNumbers, hz]
  have h3 : ∀ (f : Nat) (s' : LRState), readLineLoop o s' f = (none, s') := by
    intro f
    induction f with
    | zero => intro s'; rfl
    | succ n ih =>
      intro s'
      by_cases hcl : lrIsClosed s' = true
      · simp [readLineLoop, hcl]
      · have hclF : lrIsClosed s' = false := by
          cases hx : lrIsClosed s' with
          | false => rfl
          | true => exact absurd hx hcl
        simp [readLineLoop, hclF, hone, ih]
  have hchunks : lrChunks o = [] := by
    simp [lrChunks, h, chunksOf, chunksGo]
  refine ⟨h1, ?_, h3 fuel s, ?_, ?_⟩
  · simp [readLines, h1]
  · simp [readLineOnly, h3 fuel s]
  · simp [initState, lrIsClosed, hchunks]

/-- C8 witness: the empty-source behaviour at a concrete empty file with
buffer size 7, from the freshly constructed state. -/
theorem c8_empty_source_witness :
    (LROptions.mk [] 7 none false none).content = [] ∧
    (readLinesWithNumbers (LROptions.mk [] 7 none false none)
        (initState (LROptions.mk [] 7 none false none)) none =
      ([], initState (LROptions.mk [] 7 none false none)) ∧
    readLines (LROptions.mk [] 7 none false none)
        (initState (LROptions.mk [] 7 none false none)) none =
      ([], initState (LROptions.mk [] 7 none false none)) ∧
    readLineLoop (LROptions.mk [] 7 none false none)
        (initState (LROptions.mk [] 7 none false none)) 2 =
      (none, initState (LROptions.mk [] 7 none false none)) ∧
    readLineOnly (LROptions.mk [] 7 none false none)
        (initState (LROptions.mk [] 7 none false none)) 2 =
      (none, initState (LROptions.mk [] 7 none false none)) ∧
    lrIsClosed (initState (LROptions.mk [] 7 none false none)) = true) :=
  ⟨rfl, c8_empty_source (LROptions.mk [] 7 none false none) rfl
    (initState (LROptions.mk [] 7 none false none)) none 2⟩

/-- C9 counterexample: a reversed pair [3, 2] in skipNumbers does not make
the reader fail: reading "a\nb" with that option delivers both lines
normally, the malformed entry silently ignored. -/
theorem c9_counterexample :
    (drainAll (LROptions.mk ['a', '\n', 'b'] 10 (some LineSep.lf) false
          (some [SkipEntry.interval 3 2])) none
        (initState (LROptions.mk ['a', '\n', 'b'] 10 (some LineSep.lf) false
          (some [SkipEntry.interval 3 2]))) 3).1 =
      [(['a'], 1), (['b'], 2)] := by
  decide

/-- C9 (amended): a reversed pair (start greater than end) anywhere in
skipNumbers is silently ignored rather than raising an error: the
constructor performs no validation and the bitset addRange with start
greater than or equal to end adds nothing, so the entry contributes nothing
to the skip-set membership test and every read delivers exactly what it
would deliver with that entry removed. -/
theorem c9_reversed_range_ignored (o : LROptions) (a bnd : Nat)
    (pre post : List SkipEntry)
    (hrev : bnd < a)
    (hsk : o.skipNumbers = some (pre ++ SkipEntry.interval a bnd :: post))
    (limit : Option Nat) (fuel : Nat) (s : LRState) :
    (∀ n, skipHas (o.skipNumbers.getD []) n = skipHas (pre ++ post) n) ∧
    drainAll o limit s fuel =
      drainAll
        (LROptions.mk o.content o.bufferSize o.lineSeparator o.skipBlank (some (pre ++ post)))
        limit s fuel := by
  have hs : ∀ n, skipHas (o.skipNumbers.getD []) n = skipHas (pre ++ post) n := by
    intro n
    rw [hsk]
    simp only [Option.getD_some, skipHas, List.any_append, List.any_cons]
    have hfalse : (decide (a ≤ n) && decide (n ≤ bnd)) = false := by
      by_cases h1 : a ≤ n
      · have h2 : ¬n ≤ bnd := by omega
        simp [h1, h2]
      · simp [h1]
    rw [hfalse]
    simp
  refine ⟨hs, ?_⟩
  exact drainAll_congr o
    (LROptions.mk o.content o.bufferSize o.lineSeparator o.skipBlank (some (pre ++ post)))
    rfl rfl rfl (fun n => hs n) limit fuel s

/-- C9 witness: the amended statement with the reversed pair [3, 2] in the
middle of the list, after a live single-number entry 1, on file "a\nb". -/
theorem c9_reversed_range_ignored_witness :
    2 < 3 ∧
    (LROptions.mk ['a', '\n', 'b'] 10 (some LineSep.lf) false
        (some [SkipEntry.one 1, SkipEntry.interval 3 2])).skipNumbers =
      some [SkipEntry.one 1, SkipEntry.interval 3 2] ∧
    ((∀ n, skipHas ((LROptions.mk ['a', '\n', 'b'] 10 (some LineSep.lf) false
        (some [SkipEntry.one 1, SkipEntry.interval 3 2])).skipNumbers.getD []) n =
        skipHas [SkipEntry.one 1] n) ∧
    drainAll (LROptions.mk ['a', '\n', 'b'] 10 (some LineSep.lf) false
        (some [SkipEntry.one 1, SkipEntry.interval 3 2])) none
        (initState (LROptions.mk ['a', '\n', 'b'] 10 (some LineSep.lf) false
          (some [SkipEntry.one 1, SkipEntry.interval 3 2]))) 3 =
      drainAll (LROptions.mk ['a', '\n', 'b'] 10 (some LineSep.lf) false
          (some [SkipEntry.one 1])) none
        (initState (LROptions.mk ['a', '\n', 'b'] 10 (some LineSep.lf) false
          (some [SkipEntry.one 1, SkipEntry.interval 3 2]))) 3) :=
  ⟨by decide, rfl,
   c9_reversed_range_ignored
     (LROptions.mk ['a', '\n', 'b'] 10 (some LineSep.lf) false
       (some [SkipEntry.one 1, SkipEntry.interval 3 2]))
     3 2 [SkipEntry.one 1] [] (by decide) rfl none 3
     (initState (LROptions.mk ['a', '\n', 'b'] 10 (some LineSep.lf) false
       (some [SkipEntry.one 1, SkipEntry.interval 3 2])))⟩

/-- C10: calling readLinesWithNumbers (and hence readLines) with limit 0
behaves exactly as if no limit were given: `!limit` is true for 0, so a
fetch pass may run, and `limit || this.buffer.length` drains the whole
queue. -/
theorem c10_limit_zero (o : LROptions) (s : LRState) :
    readLinesWithNumbers o s (some 0) = readLinesWithNumbers o s none ∧
    readLines o s (some 0) = readLines o s none := by
  have h : readLinesWithNumbers o s (some 0) = readLinesWithNumbers o s none := by
    simp [readLinesWithNumbers]
  exact ⟨h, by simp [readLines, h]⟩
